import Mathlib

/-!
# Verification of the batch-renamer and PDF utilities

Shallow embedding of the Python sources `rename_file.py`, `split_pdf.py` and
`pdf2img.py` (repository `scrowten/automation`), together with proofs of the
behavioural properties stated about them.

Filesystem state is modelled explicitly: the set of existing files is a list of
paths, a path being a parent directory plus a file name.  Machine-level details
that the claims do not touch (symlink resolution, PDF page contents, pixel
data) are modelled by their observable effect only; every arithmetic or string
computation that a claim mentions is translated directly from the source.
-/

namespace Automation

instance {ε α : Type} [DecidableEq ε] [DecidableEq α] : DecidableEq (Except ε α) :=
  fun x y =>
    match x, y with
    | .error a, .error b =>
      if h : a = b then isTrue (congrArg Except.error h)
      else isFalse (fun hc => h (Except.error.inj hc))
    | .ok a, .ok b =>
      if h : a = b then isTrue (congrArg Except.ok h)
      else isFalse (fun hc => h (Except.ok.inj hc))
    | .error _, .ok _ => isFalse (fun hc => Except.noConfusion hc)
    | .ok _, .error _ => isFalse (fun hc => Except.noConfusion hc)

/-! ## Decimal rendering of naturals, as Python `str(int)` produces it -/

/-- Little-endian digit extraction with explicit fuel, so that it is
structurally recursive and evaluates inside the kernel.  `n` itself is always
enough fuel. -/
def digitsRevAux : Nat → Nat → List Char
  | _, 0 => []
  | 0, _ + 1 => []
  | fuel + 1, n + 1 => Nat.digitChar ((n + 1) % 10) :: digitsRevAux fuel ((n + 1) / 10)

/-- Little-endian list of decimal digit characters of `n`; empty for `0`.
Digits are produced exactly as Python renders nonnegative integers. -/
def digitsRev (n : Nat) : List Char := digitsRevAux n n

/-- Python's `str` applied to a natural number. -/
def natToStr (n : Nat) : String :=
  if n = 0 then "0" else ((digitsRev n).reverse).asString

/-- Numeric value of a decimal digit character. -/
def charVal (c : Char) : Nat := c.toNat - 48

/-- Value of a little-endian digit list. -/
def valRev : List Char → Nat
  | [] => 0
  | c :: cs => charVal c + 10 * valRev cs

/-! ## Strings and paths -/

/-- Python `str.zfill` for nonnegative content: left-pad with `'0'` up to `width`. -/
def zfill (width : Nat) (s : String) : String :=
  (List.replicate (width - s.length) '0').asString ++ s

/-- The padding width computed by the sequential branch of `main`
(`rename_file.py` line 92): `max(3, len(str(total + start)))`. -/
def seqWidth (total start : Nat) : Nat := max 3 (natToStr (total + start)).length

/-- Index of the last `'.'` in a character list, if any. -/
def rfindDot : List Char → Option Nat
  | [] => none
  | c :: cs =>
    match rfindDot cs with
    | some i => some (i + 1)
    | none => if c = '.' then some 0 else none

/-- `pathlib`'s stem/suffix split of a file name: the suffix starts at the last
dot, provided that dot is neither the first nor the last character. -/
def splitName (s : String) : String × String :=
  match rfindDot s.data with
  | none => (s, "")
  | some i =>
    if 0 < i ∧ i + 1 < s.data.length then
      ((s.data.take i).asString, (s.data.drop i).asString)
    else (s, "")

/-- A filesystem path: parent directory plus final file name.  `resolve()` is
modelled as the identity (no symlinks or relative segments in the model). -/
structure FsPath where
  dir : String
  name : String
deriving DecidableEq

def FsPath.stem (p : FsPath) : String := (splitName p.name).1

def FsPath.suffix (p : FsPath) : String := (splitName p.name).2

/-- `Path.with_name`. -/
def FsPath.withName (p : FsPath) (n : String) : FsPath := { dir := p.dir, name := n }

/-- `Path.with_suffix`: keep the stem, replace the suffix. -/
def FsPath.withSuffix (p : FsPath) (ext : String) : FsPath := p.withName (p.stem ++ ext)

/-- Python `str.lower` (ASCII case folding, as used on extensions here). -/
def strLower (s : String) : String := (s.data.map Char.toLower).asString

/-- `norm_ext` from `rename_file.py`: dot-prefix a nonempty extension. -/
def norm_ext (ext : String) : String :=
  if ext = "" then "" else if ext.data.head? = some '.' then ext else "." ++ ext

/-- Python `s.split(',')`: split a character list at every comma. -/
def splitOnComma : List Char → List (List Char)
  | [] => [[]]
  | c :: cs =>
    match splitOnComma cs with
    | [] => [[c]]
    | g :: gs => if c = ',' then [] :: g :: gs else (c :: g) :: gs

/-- Python `str.strip()`: drop ASCII whitespace from both ends. -/
def stripWs (cs : List Char) : List Char :=
  ((cs.dropWhile Char.isWhitespace).reverse.dropWhile Char.isWhitespace).reverse

/-- `parse_src_exts`: split on commas, strip whitespace, drop empties,
normalize each entry to lowercase dotted form; `None` input means no filter. -/
def parse_src_exts (s : Option String) : Option (List String) :=
  match s with
  | none => none
  | some str =>
    if str = "" then none
    else
      some ((((splitOnComma str.data).map (fun p => (stripWs p).asString)).filter
        (fun p => p ≠ "")).map (fun p => strLower (norm_ext p)))

/-! ## Slugify (`rename_file.py` lines 10-13) -/

/-- ASCII model of Python's regex word character `\w`. -/
def isWordChar (c : Char) : Bool := c.isAlphanum || c = '_'

/-- Characters kept by slugify: word characters, hyphen, dot. -/
def isKeep (c : Char) : Bool := isWordChar c || c = '-' || c = '.'

/-- `re.sub(r'[^\w\-\.]', '_', name)`. -/
def replaceBad (cs : List Char) : List Char :=
  cs.map (fun c => if isKeep c then c else '_')

/-- `re.sub(r'_{2,}', '_', name)`: collapse each run of underscores to one.
The boolean records whether the previous emitted character closed an
underscore run. -/
def collapseAux : Bool → List Char → List Char
  | _, [] => []
  | prevU, c :: cs =>
    if c = '_' then cond prevU (collapseAux true cs) ('_' :: collapseAux true cs)
    else c :: collapseAux false cs

def collapseU (cs : List Char) : List Char := collapseAux false cs

/-- Leading half of `str.strip('_')`. -/
def lstripU (cs : List Char) : List Char := cs.dropWhile (fun c => c = '_')

/-- Trailing half of `str.strip('_')`. -/
def rstripU : List Char → List Char
  | [] => []
  | c :: cs =>
    match rstripU cs with
    | [] => if c = '_' then [] else [c]
    | d :: ds => c :: d :: ds

/-- `slugify` from `rename_file.py`: replace characters outside
word-chars/hyphen/dot by `_`, collapse runs of `_`, strip `_` at both ends. -/
def slugify (s : String) : String :=
  (rstripU (lstripU (collapseU (replaceBad s.data)))).asString

/-- Two adjacent underscores occur somewhere in the list. -/
def hasDD : List Char → Bool
  | [] => false
  | [_] => false
  | a :: b :: cs => (a = '_' && b = '_') || hasDD (b :: cs)

/-! ## Python `str.replace` -/

/-- Left-to-right non-overlapping literal substitution, nonempty pattern.
Fuel-bounded so that it is structurally recursive; every step consumes at
least one character, so the input length is enough fuel. -/
def replAux (o : Char) (os new : List Char) : Nat → List Char → List Char
  | _, [] => []
  | 0, l => l
  | fuel + 1, c :: rest =>
    if (o :: os).isPrefixOf (c :: rest) then
      new ++ replAux o os new fuel (rest.drop os.length)
    else c :: replAux o os new fuel rest

/-- Python `str.replace(old, new)`, including the empty-pattern case in which
`new` is inserted before every character and at the end. -/
def pyReplace (s old new : String) : String :=
  match old.data with
  | [] => (new.data ++ (s.data.map (fun c => c :: new.data)).flatten).asString
  | o :: os => (replAux o os new.data s.data.length s.data).asString

/-! ## Collision resolver (`unique_path`, `rename_file.py` lines 15-24) -/

/-- Name of the `i`-th probe candidate: `f"{stem}_{i}{suffix}"`. -/
def candName (st ext : String) (i : Nat) : String := st ++ "_" ++ natToStr i ++ ext

/-- Fuel-bounded version of the `while True` probe loop of `unique_path`.
With fuel `fsf.length + 1` the fallback (fuel `0`) is never reached. -/
def probe (fsf : List FsPath) (base : FsPath) (st ext : String) : Nat → Nat → FsPath
  | i, 0 => base.withName (candName st ext i)
  | i, fuel + 1 =>
    if base.withName (candName st ext i) ∈ fsf then probe fsf base st ext (i + 1) fuel
    else base.withName (candName st ext i)

/-- `unique_path`: return `dest` when it does not exist, otherwise the first
`stem_n` candidate (`n = 1, 2, ...`) that does not exist. -/
def unique_path (fsf : List FsPath) (dest : FsPath) : FsPath :=
  if dest ∈ fsf then probe fsf dest dest.stem dest.suffix 1 (fsf.length + 1)
  else dest

/-- Specification predicate, following the spec's words for the collision
resolver: the result is `dest` itself when `dest` does not exist, and
otherwise the first candidate `stem_n + suffix` (`n = 1, 2, ...`) that does
not exist. -/
def FirstFreeResolution (fsf : List FsPath) (dest r : FsPath) : Prop :=
  (dest ∉ fsf ∧ r = dest) ∨
  (dest ∈ fsf ∧ ∃ n, 1 ≤ n ∧ r = dest.withName (candName dest.stem dest.suffix n) ∧
    r ∉ fsf ∧ ∀ m, 1 ≤ m → m < n → dest.withName (candName dest.stem dest.suffix m) ∈ fsf)

/-! ## The renamer pipeline (`main` of `rename_file.py`) -/

inductive Mode
  | sequential
  | slugify
  | lowercase
  | replace
deriving DecidableEq

/-- The argparse options record of `rename_file.py` (`pre` is `--prefix`). -/
structure Args where
  mode : Mode
  pre : String
  replaceFrom : Option String
  replaceTo : Option String
  start : Nat
  dryRun : Bool
  changeExt : Option String
  onlyExt : Bool
  srcExt : Option String
deriving DecidableEq

/-- Destination in sequential mode: `prefix + zero-padded index + suffix`,
then the optional `--change-ext` replacement (lines 95-98). -/
def seqDest (pre : String) (width : Nat) (changeExt : String) (idx : Nat) (f : FsPath) :
    FsPath :=
  let dest := f.withName (pre ++ zfill width (natToStr idx) ++ f.suffix)
  if changeExt = "" then dest else dest.withSuffix changeExt

/-- The sequential-mode loop (lines 93-100), carrying the running index. -/
def seqMap (pre : String) (width : Nat) (changeExt : String) :
    Nat → List FsPath → List (FsPath × FsPath)
  | _, [] => []
  | idx, f :: fl => (f, seqDest pre width changeExt idx f) :: seqMap pre width changeExt (idx + 1) fl

/-- Effectful map over a list, stopping at the first error (a raised
`SystemExit` in the source aborts the whole mapping loop). -/
def mapExcept (f : α → Except String β) : List α → Except String (List β)
  | [] => .ok []
  | a :: as =>
    match f a with
    | .error e => .error e
    | .ok b =>
      match mapExcept f as with
      | .error e => .error e
      | .ok bs => .ok (b :: bs)

/-- New stem for the non-sequential modes (lines 103-112).  The `sequential`
case mirrors the dead final `else: new_stem = f.stem` of the source: that
branch is unreachable from `buildMapping`. -/
def nonSeqStem (args : Args) (f : FsPath) : Except String String :=
  match args.mode with
  | .slugify => .ok (slugify f.stem)
  | .lowercase => .ok (strLower f.stem)
  | .replace =>
    match args.replaceFrom with
    | none => .error "replace mode requires --replace-from"
    | some fr => .ok (pyReplace f.stem fr (args.replaceTo.getD ""))
  | .sequential => .ok f.stem

/-- Tentative destination for a non-sequential mode (lines 113-114):
`f.with_name(new_stem + new_suffix)` with `new_suffix = change_ext or f.suffix`. -/
def nonSeqDest (args : Args) (changeExt : String) (f : FsPath) :
    Except String (FsPath × FsPath) :=
  match nonSeqStem args f with
  | .error e => .error e
  | .ok st => .ok (f, f.withName (st ++ (if changeExt = "" then f.suffix else changeExt)))

/-- The in-memory rename mapping (lines 83-114), in file order. -/
def buildMapping (args : Args) (changeExt : String) (files : List FsPath) :
    Except String (List (FsPath × FsPath)) :=
  if args.onlyExt then
    if changeExt = "" then .error "--only-ext requires --change-ext to be provided"
    else .ok (files.map (fun f => (f, f.withSuffix changeExt)))
  else
    match args.mode with
    | .sequential =>
      .ok (seqMap args.pre (seqWidth files.length args.start) changeExt args.start files)
    | _ => mapExcept (nonSeqDest args changeExt) files

/-- Filesystem state: existing files and existing directories. -/
structure FS where
  files : List FsPath
  dirs : List String
deriving DecidableEq

/-- Effect of `dest.parent.mkdir(parents=True, exist_ok=True)` followed by
`os.rename(src, dest)` on the modelled filesystem state. -/
def renameStep (fs : FS) (src dest : FsPath) : FS :=
  { files := dest :: fs.files.erase src
    dirs := if dest.dir ∈ fs.dirs then fs.dirs else dest.dir :: fs.dirs }

/-- The apply loop (lines 117-124): resolve each tentative destination against
the current filesystem, skip when source and resolved destination coincide,
otherwise record the printed `src -> dest` pair and, unless `dry_run`, create
the destination's parent directory and move the file. -/
def applyAll (dryRun : Bool) : List (FsPath × FsPath) → FS → List (FsPath × FsPath) × FS
  | [], fs => ([], fs)
  | (src, tent) :: ps, fs =>
    if src = unique_path fs.files tent then applyAll dryRun ps fs
    else
      ((src, unique_path fs.files tent) ::
          (applyAll dryRun ps
            (cond dryRun fs (renameStep fs src (unique_path fs.files tent)))).1,
        (applyAll dryRun ps
          (cond dryRun fs (renameStep fs src (unique_path fs.files tent)))).2)

/-- The `--src-ext` filter (lines 75-76): keep files whose lowercased suffix
is among the parsed extensions. -/
def filterBySrc (srcExts : Option (List String)) (files : List FsPath) : List FsPath :=
  match srcExts with
  | none => files
  | some exts => files.filter (fun f => strLower f.suffix ∈ exts)

/-- `change_ext = norm_ext(args.change_ext) if args.change_ext else ""` (line 81). -/
def normChangeExt (args : Args) : String :=
  match args.changeExt with
  | none => ""
  | some e => norm_ext e

/-- `main` of `rename_file.py`, with the directory walk supplied as the sorted
list of regular files found under the root.  The two empty-result early
returns (lines 70-72 and 77-79) yield an empty plan; an `error` result is a
`SystemExit` raised before any filesystem mutation. -/
def runMain (args : Args) (files : List FsPath) (fs : FS) :
    Except String (List (FsPath × FsPath) × FS) :=
  if files = [] then .ok ([], fs)
  else if (parse_src_exts args.srcExt).isSome ∧
      filterBySrc (parse_src_exts args.srcExt) files = [] then .ok ([], fs)
  else
    match buildMapping args (normChangeExt args)
        (filterBySrc (parse_src_exts args.srcExt) files) with
    | .error e => .error e
    | .ok mapping => .ok (applyAll args.dryRun mapping fs)

/-! ## PDF page-range logic -/

/-- `extract_pages` of `split_pdf.py` (lines 100-154) up to the observable
page-range outcome: the input-validation sequence, then the clamp of an
out-of-range end page.  `ok (s, e, w)` means pages `s..e` (1-based) are
extracted and `w` records whether the clamp warning was printed.  The three
booleans model the path checks that precede opening the document. -/
def extract_pages (inputExists inputIsPdf outputIsPdf : Bool) (totalPages : Nat)
    (startPage endPage : Int) (verbose : Bool) : Except String (Int × Int × Bool) :=
  if !inputExists then .error "Input PDF not found"
  else if !inputIsPdf then .error "Input file is not a PDF"
  else if !outputIsPdf then .error "Output file must be a PDF"
  else if startPage ≤ 0 ∨ endPage ≤ 0 then .error "Page numbers must be positive integers."
  else if startPage > endPage then .error "Start page cannot be greater than end page."
  else if startPage > (totalPages : Int) then .error "Start page exceeds total pages."
  else
    .ok (startPage,
      (if endPage > (totalPages : Int) then (totalPages : Int) else endPage),
      decide (endPage > (totalPages : Int)) && verbose)

/-- `start = 0 if first_page is None else max(0, first_page - 1)` (line 30). -/
def cvtStart (firstPage : Option Int) : Int :=
  match firstPage with
  | none => 0
  | some f => max 0 (f - 1)

/-- `end = page_count - 1 if last_page is None else min(page_count - 1, last_page - 1)`
(line 31). -/
def cvtEnd (pageCount : Nat) (lastPage : Option Int) : Int :=
  match lastPage with
  | none => (pageCount : Int) - 1
  | some l => min ((pageCount : Int) - 1) (l - 1)

/-- `convert_pdf_to_images` of `pdf2img.py` (lines 7-52) up to the observable
outcome: the 0-based clamped range `start..end` and the list of image file
names written, or the invalid-range error.  Rasterization itself is not
modelled; `pdfOpens` models whether `pymupdf.open` succeeds. -/
def convert_pdf_to_images (pdfOpens : Bool) (pageCount : Nat)
    (firstPage lastPage : Option Int) (imageFormat : String) :
    Except String (List String) :=
  if !pdfOpens then .error "Unable to open PDF"
  else if cvtStart firstPage > cvtEnd pageCount lastPage then
    .error "Invalid page range: start page is after end page"
  else
    .ok ((List.range ((cvtEnd pageCount lastPage).toNat + 1 - (cvtStart firstPage).toNat)).map
      (fun k => "page_" ++ natToStr ((cvtStart firstPage).toNat + k + 1) ++ "." ++ imageFormat))

/-! ## Concrete runs used by the claim witnesses and counterexamples -/

/-- Slugify run over two files with distinct stems that slug to the same name. -/
def w1args : Args :=
  { mode := Mode.slugify, pre := "", replaceFrom := none, replaceTo := none,
    start := 1, dryRun := false, changeExt := none, onlyExt := false, srcExt := none }

def w1files : List FsPath := [⟨"d", "a b.txt"⟩, ⟨"d", "a_b.txt"⟩]

def w1fs : FS := ⟨w1files, ["d"]⟩

def w1res : List (FsPath × FsPath) × FS :=
  ([(⟨"d", "a b.txt"⟩, ⟨"d", "a_b_1.txt"⟩), (⟨"d", "a_b.txt"⟩, ⟨"d", "a_b_2.txt"⟩)],
    ⟨[⟨"d", "a_b_2.txt"⟩, ⟨"d", "a_b_1.txt"⟩], ["d"]⟩)

/-- The end-to-end scenario of the spec: `a.TXT`, `b.txt`, `c.md`, filter
`txt`, mode `lowercase`. -/
def c3args : Args :=
  { mode := Mode.lowercase, pre := "", replaceFrom := none, replaceTo := none,
    start := 1, dryRun := false, changeExt := none, onlyExt := false, srcExt := some "txt" }

def c3files : List FsPath := [⟨"d", "a.TXT"⟩, ⟨"d", "b.txt"⟩, ⟨"d", "c.md"⟩]

def c3fs : FS := ⟨c3files, ["d"]⟩

/-- Replace-mode invocation missing `--replace-from`. -/
def c9args1 : Args :=
  { mode := Mode.replace, pre := "", replaceFrom := none, replaceTo := none,
    start := 1, dryRun := false, changeExt := none, onlyExt := false, srcExt := none }

/-- Replace-mode invocation substituting `"a"` by `"b"`. -/
def c9args2 : Args :=
  { mode := Mode.replace, pre := "", replaceFrom := some "a", replaceTo := some "b",
    start := 1, dryRun := false, changeExt := none, onlyExt := false, srcExt := none }

/-! ## Lemmas: decimal rendering -/

theorem digitsRevAux_congr :
    ∀ (n f1 f2 : Nat), n ≤ f1 → n ≤ f2 → digitsRevAux f1 n = digitsRevAux f2 n := by
  intro n
  induction n using Nat.strong_induction_on with
  | _ n ih =>
    intro f1 f2 h1 h2
    match n, f1, f2 with
    | 0, g1, g2 => cases g1 <;> cases g2 <;> rfl
    | m + 1, g1 + 1, g2 + 1 =>
      rw [digitsRevAux, digitsRevAux]
      have hdiv : (m + 1) / 10 < m + 1 := Nat.div_lt_self (Nat.succ_pos m) (by norm_num)
      rw [ih ((m + 1) / 10) hdiv g1 g2 (by omega) (by omega)]

theorem digitsRev_succ (n : Nat) :
    digitsRev (n + 1) = Nat.digitChar ((n + 1) % 10) :: digitsRev ((n + 1) / 10) := by
  have hdiv : (n + 1) / 10 < n + 1 := Nat.div_lt_self (Nat.succ_pos n) (by norm_num)
  rw [digitsRev, digitsRev, digitsRevAux,
    digitsRevAux_congr ((n + 1) / 10) n ((n + 1) / 10) (by omega) (le_refl _)]

theorem charVal_digitChar (m : Nat) (h : m < 10) : charVal (Nat.digitChar m) = m := by
  interval_cases m <;> rfl

theorem valRev_digitsRev (n : Nat) : valRev (digitsRev n) = n := by
  induction n using Nat.strong_induction_on with
  | _ n ih =>
    match n with
    | 0 => rfl
    | Nat.succ m =>
      rw [digitsRev_succ, valRev,
        ih ((m + 1) / 10) (Nat.div_lt_self (Nat.succ_pos m) (by norm_num)),
        charVal_digitChar _ (Nat.mod_lt _ (by norm_num))]
      exact Nat.mod_add_div (m + 1) 10

theorem toList_asString (l : List Char) : (l.asString).data = l := rfl

theorem natToStr_inj : Function.Injective natToStr := by
  intro m n h
  by_cases hm : m = 0 <;> by_cases hn : n = 0
  · omega
  · exfalso
    rw [natToStr, natToStr, if_pos hm, if_neg hn] at h
    have h2 : ("0" : String).data = ((digitsRev n).reverse).asString.data := by rw [h]
    rw [toList_asString] at h2
    have h3 : digitsRev n = ['0'] := by
      have := congrArg List.reverse h2
      simpa using this.symm
    have h4 := valRev_digitsRev n
    rw [h3] at h4
    simp [valRev, charVal] at h4
    exact hn h4.symm
  · exfalso
    rw [natToStr, natToStr, if_neg hm, if_pos hn] at h
    have h2 : ((digitsRev m).reverse).asString.data = ("0" : String).data := by rw [h]
    rw [toList_asString] at h2
    have h3 : digitsRev m = ['0'] := by
      have := congrArg List.reverse h2
      simpa using this
    have h4 := valRev_digitsRev m
    rw [h3] at h4
    simp [valRev, charVal] at h4
    exact hm h4.symm
  · rw [natToStr, natToStr, if_neg hm, if_neg hn] at h
    have h2 := congrArg String.data h
    rw [toList_asString, toList_asString] at h2
    have h3 : digitsRev m = digitsRev n := by
      have := congrArg List.reverse h2
      simpa using this
    have h4 := valRev_digitsRev m
    rw [h3, valRev_digitsRev n] at h4
    exact h4.symm

theorem digitsRev_length_mono : ∀ {m n : Nat}, m ≤ n →
    (digitsRev m).length ≤ (digitsRev n).length := by
  intro m n
  induction n using Nat.strong_induction_on generalizing m with
  | _ n ih =>
    intro hmn
    match m, n with
    | 0, _ => simp [digitsRev, digitsRevAux]
    | Nat.succ a, Nat.succ b =>
      rw [digitsRev_succ, digitsRev_succ]
      simp only [List.length_cons, Nat.add_le_add_iff_right]
      exact ih ((b + 1) / 10) (Nat.div_lt_self (Nat.succ_pos b) (by norm_num))
        (Nat.div_le_div_right hmn)

theorem string_length_data (s : String) : s.length = s.data.length := rfl

theorem natToStr_length_mono {m n : Nat} (h : m ≤ n) :
    (natToStr m).length ≤ (natToStr n).length := by
  by_cases hm : m = 0 <;> by_cases hn : n = 0
  · subst hm; subst hn; exact le_refl _
  · rw [natToStr, natToStr, if_pos hm, if_neg hn]
    have h1 : digitsRev n ≠ [] := by
      match n with
      | Nat.succ k => rw [digitsRev_succ]; simp
    have h2 : 1 ≤ (digitsRev n).length := by
      cases h3 : digitsRev n with
      | nil => exact absurd h3 h1
      | cons a l => simp
    simpa [string_length_data, toList_asString] using h2
  · omega
  · rw [natToStr, natToStr, if_neg hm, if_neg hn]
    simpa [string_length_data, toList_asString] using digitsRev_length_mono h

/-! ## Lemmas: slugify idempotence -/

theorem mem_replaceBad {cs : List Char} {c : Char} (h : c ∈ replaceBad cs) :
    isKeep c = true := by
  rw [replaceBad] at h
  rcases List.mem_map.mp h with ⟨a, _, rfl⟩
  by_cases hk : isKeep a = true
  · simp [hk]
  · simp only [hk]
    simp only [Bool.false_eq_true, if_false]
    decide

theorem mem_collapseAux {c : Char} :
    ∀ (b : Bool) (cs : List Char), c ∈ collapseAux b cs → c ∈ cs := by
  intro b cs
  induction cs generalizing b with
  | nil => simp [collapseAux]
  | cons a l ih =>
    intro h
    rw [collapseAux] at h
    by_cases ha : a = '_'
    · rw [if_pos ha] at h
      cases b with
      | true => exact List.mem_cons_of_mem a (ih true h)
      | false =>
        rcases List.mem_cons.mp h with h1 | h1
        · subst h1; subst ha; exact List.mem_cons_self _ _
        · exact List.mem_cons_of_mem a (ih true h1)
    · rw [if_neg ha] at h
      rcases List.mem_cons.mp h with h1 | h1
      · subst h1; exact List.mem_cons_self _ _
      · exact List.mem_cons_of_mem a (ih false h1)

theorem hasDD_tail {a : Char} {cs : List Char} (h : hasDD (a :: cs) = false) :
    hasDD cs = false := by
  cases cs with
  | nil => rfl
  | cons b l =>
    rw [hasDD] at h
    exact (Bool.or_eq_false_iff.mp h).2

theorem hasDD_head {a : Char} {cs : List Char} (h : hasDD ('_' :: a :: cs) = false) :
    a ≠ '_' := by
  rw [hasDD] at h
  intro hc
  subst hc
  simp at h

/-- The result of `collapseAux true` never starts with an underscore. -/
theorem collapseAux_true_head :
    ∀ cs : List Char, (collapseAux true cs).head? ≠ some '_' := by
  intro cs
  induction cs with
  | nil => simp [collapseAux]
  | cons a l ih =>
    rw [collapseAux]
    by_cases ha : a = '_'
    · rw [if_pos ha]; exact ih
    · rw [if_neg ha]
      exact fun hc => ha (Option.some.inj hc)

theorem hasDD_cons {a : Char} {cs : List Char} (h1 : hasDD cs = false)
    (h2 : a ≠ '_' ∨ cs.head? ≠ some '_') : hasDD (a :: cs) = false := by
  cases cs with
  | nil => rfl
  | cons b l =>
    rw [hasDD, Bool.or_eq_false_iff]
    refine ⟨?_, h1⟩
    rcases h2 with h2 | h2
    · simp [h2]
    · have hb : b ≠ '_' := fun hc => h2 (by rw [List.head?_cons, hc])
      simp [hb]

theorem hasDD_collapseAux : ∀ (b : Bool) (cs : List Char),
    hasDD (collapseAux b cs) = false := by
  intro b cs
  induction cs generalizing b with
  | nil => cases b <;> rfl
  | cons a l ih =>
    rw [collapseAux]
    by_cases ha : a = '_'
    · rw [if_pos ha]
      cases b with
      | true => exact ih true
      | false =>
        subst ha
        exact hasDD_cons (ih true) (Or.inr (collapseAux_true_head l))
    · rw [if_neg ha]
      exact hasDD_cons (ih false) (Or.inl ha)

/-- On a list with no double underscore, the collapse pass is the identity
(provided the leading-underscore flag is compatible with the head). -/
theorem collapseAux_id : ∀ (b : Bool) (cs : List Char), hasDD cs = false →
    (b = true → cs.head? ≠ some '_') → collapseAux b cs = cs := by
  intro b cs
  induction cs generalizing b with
  | nil => intro _ _; cases b <;> rfl
  | cons a l ih =>
    intro h1 h2
    rw [collapseAux]
    by_cases ha : a = '_'
    · rw [if_pos ha]
      cases b with
      | true =>
        exfalso
        exact h2 rfl (by rw [List.head?_cons, ha])
      | false =>
        subst ha
        rw [cond_false]
        congr 1
        refine ih true (hasDD_tail h1) ?_
        intro _
        cases l with
        | nil => simp
        | cons c m =>
          exact fun hc => hasDD_head h1 (Option.some.inj hc)
    · rw [if_neg ha]
      congr 1
      exact ih false (hasDD_tail h1) (by simp)

theorem hasDD_dropWhile {p : Char → Bool} :
    ∀ cs : List Char, hasDD cs = false → hasDD (cs.dropWhile p) = false := by
  intro cs
  induction cs with
  | nil => intro h; exact h
  | cons a l ih =>
    intro h
    rw [List.dropWhile_cons]
    by_cases hp : p a = true
    · rw [if_pos hp]
      exact ih (hasDD_tail h)
    · rw [if_neg hp]
      exact h

theorem hasDD_append_left : ∀ {l t : List Char}, hasDD (l ++ t) = false →
    hasDD l = false := by
  intro l
  induction l with
  | nil => intro t _; rfl
  | cons a m ih =>
    intro t h
    cases m with
    | nil => rfl
    | cons b k =>
      rw [List.cons_append] at h
      rw [hasDD, Bool.or_eq_false_iff]
      rw [List.cons_append] at h
      rw [hasDD, Bool.or_eq_false_iff] at h
      exact ⟨h.1, ih (by rw [List.cons_append]; exact h.2)⟩

/-- `rstripU` returns a prefix of its input. -/
theorem rstripU_append : ∀ cs : List Char, ∃ t, rstripU cs ++ t = cs := by
  intro cs
  induction cs with
  | nil => exact ⟨[], rfl⟩
  | cons a l ih =>
    rw [rstripU]
    rcases ih with ⟨t, ht⟩
    cases hr : rstripU l with
    | nil =>
      by_cases ha : a = '_'
      · exact ⟨a :: l, by rw [if_pos ha]; rfl⟩
      · exact ⟨l, by rw [if_neg ha]; simp⟩
    | cons d ds =>
      refine ⟨t, ?_⟩
      rw [hr] at ht
      rw [List.cons_append, ht]

theorem rstripU_getLast : ∀ cs : List Char, (rstripU cs).getLast? ≠ some '_' := by
  intro cs
  induction cs with
  | nil => simp [rstripU]
  | cons a l ih =>
    rw [rstripU]
    cases hr : rstripU l with
    | nil =>
      by_cases ha : a = '_'
      · rw [if_pos ha]; simp
      · rw [if_neg ha]
        rw [List.getLast?_singleton]
        exact fun hc => ha (Option.some.inj hc)
    | cons d ds =>
      rw [List.getLast?_cons_cons]
      rw [hr] at ih
      exact ih

theorem rstripU_id : ∀ cs : List Char, cs.getLast? ≠ some '_' → rstripU cs = cs := by
  intro cs
  induction cs with
  | nil => intro _; rfl
  | cons a l ih =>
    intro h
    rw [rstripU]
    cases l with
    | nil =>
      have ha : a ≠ '_' := by
        rw [List.getLast?_singleton] at h
        exact fun hc => h (by rw [hc])
      simp [rstripU, ha]
    | cons b m =>
      rw [List.getLast?_cons_cons] at h
      have h2 := ih h
      rw [h2]

theorem head_dropWhile_ne {p : Char → Bool} :
    ∀ (cs : List Char) (c : Char), (cs.dropWhile p).head? = some c → p c = false := by
  intro cs
  induction cs with
  | nil => intro c h; simp at h
  | cons a l ih =>
    intro c h
    rw [List.dropWhile_cons] at h
    by_cases hp : p a = true
    · rw [if_pos hp] at h
      exact ih c h
    · rw [if_neg hp] at h
      simp only [List.head?_cons, Option.some.injEq] at h
      subst h
      exact Bool.eq_false_iff.mpr hp

theorem lstripU_id : ∀ cs : List Char, cs.head? ≠ some '_' → lstripU cs = cs := by
  intro cs h
  cases cs with
  | nil => rfl
  | cons a l =>
    simp only [List.head?_cons, Option.some.injEq] at h
    rw [lstripU, List.dropWhile_cons, if_neg (by simpa using h)]

/-- The slugified character list: every character is kept, there is no double
underscore, and neither end is an underscore. -/
theorem slugify_data_shape (s : String) :
    (∀ c ∈ (slugify s).data, isKeep c = true) ∧
    hasDD (slugify s).data = false ∧
    (slugify s).data.head? ≠ some '_' ∧
    (slugify s).data.getLast? ≠ some '_' := by
  have hdata : (slugify s).data = rstripU (lstripU (collapseU (replaceBad s.data))) := rfl
  rcases rstripU_append (lstripU (collapseU (replaceBad s.data))) with ⟨t, ht⟩
  refine ⟨?_, ?_, ?_, ?_⟩
  · intro c hc
    rw [hdata] at hc
    have h1 : c ∈ lstripU (collapseU (replaceBad s.data)) := by
      rw [← ht]
      exact List.mem_append_left t hc
    have h2 : c ∈ collapseU (replaceBad s.data) :=
      (List.dropWhile_sublist _).mem h1
    exact mem_replaceBad (mem_collapseAux false _ h2)
  · rw [hdata]
    refine hasDD_append_left (l := rstripU (lstripU (collapseU (replaceBad s.data))))
      (t := t) ?_
    rw [ht]
    exact hasDD_dropWhile _ (hasDD_collapseAux false _)
  · rw [hdata]
    intro hh
    cases hr : rstripU (lstripU (collapseU (replaceBad s.data))) with
    | nil => rw [hr] at hh; simp at hh
    | cons d ds =>
      rw [hr] at hh
      simp only [List.head?_cons, Option.some.injEq] at hh
      subst hh
      rw [hr] at ht
      have hhead : (lstripU (collapseU (replaceBad s.data))).head? = some '_' := by
        rw [← ht]
        rfl
      have := head_dropWhile_ne _ _ hhead
      simp at this
  · rw [hdata]
    exact rstripU_getLast _

theorem replaceBad_id {cs : List Char} (h : ∀ c ∈ cs, isKeep c = true) :
    replaceBad cs = cs := by
  rw [replaceBad]
  rw [List.map_congr_left (g := id) (fun c hc => by rw [h c hc]; rfl)]
  exact List.map_id cs

/-- C5: slugify is idempotent: for every input string `s`,
`slugify (slugify s) = slugify s`, where slugify replaces every character
outside word characters, hyphen and dot with underscore, collapses runs of
underscores, and trims leading and trailing underscores. -/
theorem claim5_slugify_idempotent (s : String) : slugify (slugify s) = slugify s := by
  rcases slugify_data_shape s with ⟨hkeep, hdd, hhead, hlast⟩
  have h1 : replaceBad (slugify s).data = (slugify s).data := replaceBad_id hkeep
  have h2 : collapseU (slugify s).data = (slugify s).data := by
    rw [collapseU]
    exact collapseAux_id false _ hdd (by simp)
  have h3 : lstripU (slugify s).data = (slugify s).data := lstripU_id _ hhead
  have h4 : rstripU (slugify s).data = (slugify s).data := rstripU_id _ hlast
  show (rstripU (lstripU (collapseU (replaceBad (slugify s).data)))).asString = slugify s
  rw [h1, h2, h3, h4]
  cases hs : slugify s
  rfl

/-! ## Lemmas: collision resolver -/

theorem string_data_append (s t : String) : (s ++ t).data = s.data ++ t.data := by
  cases s
  cases t
  rfl

theorem string_eq_of_data {s t : String} (h : s.data = t.data) : s = t :=
  congrArg String.mk h

theorem candName_inj (st ext : String) : Function.Injective (candName st ext) := by
  intro i j h
  rw [candName, candName] at h
  have h2 := congrArg String.data h
  simp only [string_data_append] at h2
  have h3 := List.append_cancel_right h2
  have h4 := List.append_cancel_left h3
  exact natToStr_inj (string_eq_of_data h4)

/-- The probe loop, given enough fuel to reach a free candidate, returns the
first free candidate at or after its starting index. -/
theorem probe_spec (fsf : List FsPath) (base : FsPath) (st ext : String) :
    ∀ (fuel i : Nat), (∃ k, k < fuel ∧ base.withName (candName st ext (i + k)) ∉ fsf) →
      ∃ n, i ≤ n ∧ probe fsf base st ext i fuel = base.withName (candName st ext n) ∧
        base.withName (candName st ext n) ∉ fsf ∧
        ∀ m, i ≤ m → m < n → base.withName (candName st ext m) ∈ fsf := by
  intro fuel
  induction fuel with
  | zero =>
    intro i h
    rcases h with ⟨k, hk, _⟩
    omega
  | succ fuel ih =>
    intro i h
    rcases h with ⟨k, hk, hfree⟩
    by_cases hc : base.withName (candName st ext i) ∈ fsf
    · have hk0 : k ≠ 0 := by
        intro h0
        subst h0
        exact hfree hc
      have hnext : ∃ k, k < fuel ∧ base.withName (candName st ext (i + 1 + k)) ∉ fsf := by
        refine ⟨k - 1, by omega, ?_⟩
        have heq : i + 1 + (k - 1) = i + k := by omega
        rw [heq]
        exact hfree
      obtain ⟨n, hin, heq, hnot, hall⟩ := ih (i + 1) hnext
      refine ⟨n, by omega, ?_, hnot, ?_⟩
      · rw [probe, if_pos hc]
        exact heq
      · intro m him hmn
        by_cases hmi : m = i
        · subst hmi; exact hc
        · exact hall m (by omega) hmn
    · refine ⟨i, le_refl i, ?_, hc, ?_⟩
      · rw [probe, if_neg hc]
      · intro m h1 h2
        omega

/-- With fuel `fsf.length + 1` some candidate is free (pigeonhole via the
injectivity of the candidate names in the counter). -/
theorem probe_fuel_exists (fsf : List FsPath) (base : FsPath) (st ext : String) :
    ∃ k, k < fsf.length + 1 ∧ base.withName (candName st ext (1 + k)) ∉ fsf := by
  by_contra hcon
  push_neg at hcon
  have hinj : Function.Injective (fun k : Nat => base.withName (candName st ext (1 + k))) := by
    intro a b h
    simp only [FsPath.withName, FsPath.mk.injEq, true_and] at h
    have := candName_inj st ext h
    omega
  have hnodup : ((List.range (fsf.length + 1)).map
      (fun k => base.withName (candName st ext (1 + k)))).Nodup :=
    (List.nodup_range _).map hinj
  have hsub : ((List.range (fsf.length + 1)).map
      (fun k => base.withName (candName st ext (1 + k)))) ⊆ fsf := by
    intro x hx
    rcases List.mem_map.mp hx with ⟨k, hk, rfl⟩
    exact hcon k (List.mem_range.mp hk)
  have hlen := (List.subperm_of_subset hnodup hsub).length_le
  simp at hlen

/-- The collision resolver never lands on an existing path. -/
theorem unique_path_not_mem (fsf : List FsPath) (dest : FsPath) :
    unique_path fsf dest ∉ fsf := by
  rw [unique_path]
  by_cases hd : dest ∈ fsf
  · rw [if_pos hd]
    obtain ⟨k, hk, hfree⟩ := probe_fuel_exists fsf dest dest.stem dest.suffix
    obtain ⟨n, _, heq, hnot, _⟩ :=
      probe_spec fsf dest dest.stem dest.suffix (fsf.length + 1) 1 ⟨k, hk, hfree⟩
    rw [heq]
    exact hnot
  · rw [if_neg hd]
    exact hd

/-! ## Lemmas: the apply loop -/

/-- A path that exists and is not among the remaining sources survives the
rest of a non-dry run untouched, and no later rename lands on it. -/
theorem applyAll_persist (x : FsPath) :
    ∀ (ps : List (FsPath × FsPath)) (fs : FS), x ∈ fs.files →
      (∀ p ∈ ps, x ≠ p.1) →
      x ∈ ((applyAll false ps fs).2).files ∧
        x ∉ (applyAll false ps fs).1.map Prod.snd := by
  intro ps
  induction ps with
  | nil =>
    intro fs hx _
    exact ⟨hx, by simp [applyAll]⟩
  | cons p ps ih =>
    intro fs hx hsrc
    obtain ⟨src, tent⟩ := p
    have hdest : unique_path fs.files tent ∉ fs.files := unique_path_not_mem _ _
    have hxd : x ≠ unique_path fs.files tent := fun hh => hdest (hh ▸ hx)
    rw [applyAll]
    by_cases hs : src = unique_path fs.files tent
    · rw [if_pos hs]
      exact ih fs hx (fun q hq => hsrc q (List.mem_cons_of_mem _ hq))
    · rw [if_neg hs]
      have hxs : x ≠ src := hsrc (src, tent) (List.mem_cons_self _ _)
      have hx' : x ∈ (renameStep fs src (unique_path fs.files tent)).files :=
        List.mem_cons_of_mem _ ((List.mem_erase_of_ne hxs).mpr hx)
      obtain ⟨h1, h2⟩ := ih (renameStep fs src (unique_path fs.files tent)) hx'
        (fun q hq => hsrc q (List.mem_cons_of_mem _ hq))
      refine ⟨h1, ?_⟩
      simp only [cond_false, List.map_cons, List.mem_cons]
      rintro (hh | hh)
      · exact hxd hh
      · exact h2 hh

/-- In a non-dry run with pairwise-distinct sources that all exist, the
resolved destinations of the printed renames are pairwise distinct. -/
theorem applyAll_dests_distinct :
    ∀ (ps : List (FsPath × FsPath)) (fs : FS),
      (ps.map Prod.fst).Nodup → (∀ p ∈ ps, p.1 ∈ fs.files) →
      ((applyAll false ps fs).1.map Prod.snd).Pairwise (· ≠ ·) := by
  intro ps
  induction ps with
  | nil =>
    intro fs _ _
    simp [applyAll]
  | cons p ps ih =>
    intro fs hnodup hmem
    obtain ⟨src, tent⟩ := p
    have hsrcmem : src ∈ fs.files := hmem (src, tent) (List.mem_cons_self _ _)
    have hdest : unique_path fs.files tent ∉ fs.files := unique_path_not_mem _ _
    have hs : src ≠ unique_path fs.files tent := fun hh => hdest (hh ▸ hsrcmem)
    rw [applyAll, if_neg hs]
    simp only [List.map_cons] at hnodup
    have hns := List.nodup_cons.mp hnodup
    have hnodup' : (ps.map Prod.fst).Nodup := hns.2
    have hmem' : ∀ q ∈ ps, q.1 ∈ (renameStep fs src (unique_path fs.files tent)).files := by
      intro q hq
      have hqs : q.1 ≠ src := by
        intro hh
        exact hns.1 (hh ▸ List.mem_map_of_mem Prod.fst hq)
      exact List.mem_cons_of_mem _
        ((List.mem_erase_of_ne hqs).mpr (hmem q (List.mem_cons_of_mem _ hq)))
    have htail := ih (renameStep fs src (unique_path fs.files tent)) hnodup' hmem'
    have hdmem : unique_path fs.files tent ∈
        (renameStep fs src (unique_path fs.files tent)).files := List.mem_cons_self _ _
    have hdsrc : ∀ q ∈ ps, unique_path fs.files tent ≠ q.1 :=
      fun q hq hh => hdest (hh ▸ hmem q (List.mem_cons_of_mem _ hq))
    obtain ⟨_, hdnot⟩ :=
      applyAll_persist (unique_path fs.files tent) ps
        (renameStep fs src (unique_path fs.files tent)) hdmem hdsrc
    simp only [cond_false, List.map_cons]
    refine List.pairwise_cons.mpr ⟨?_, htail⟩
    intro b hb hh
    exact hdnot (hh ▸ hb)

/-! ## Lemmas: the planning stage -/

theorem seqMap_fst (pre : String) (width : Nat) (chExt : String) :
    ∀ (idx : Nat) (fl : List FsPath), (seqMap pre width chExt idx fl).map Prod.fst = fl := by
  intro idx fl
  induction fl generalizing idx with
  | nil => rfl
  | cons f fl ih =>
    rw [seqMap]
    simp only [List.map_cons]
    rw [ih]

theorem mapExcept_nonSeqDest_fst (args : Args) (chExt : String) :
    ∀ (fl : List FsPath) (m : List (FsPath × FsPath)),
      mapExcept (nonSeqDest args chExt) fl = .ok m → m.map Prod.fst = fl := by
  intro fl
  induction fl with
  | nil =>
    intro m hm
    rw [mapExcept] at hm
    cases hm
    rfl
  | cons f fl ih =>
    intro m hm
    rw [mapExcept] at hm
    cases hd : nonSeqDest args chExt f with
    | error e => rw [hd] at hm; cases hm
    | ok b =>
      rw [hd] at hm
      cases ht : mapExcept (nonSeqDest args chExt) fl with
      | error e => rw [ht] at hm; cases hm
      | ok bs =>
        rw [ht] at hm
        cases hm
        have hb : b.1 = f := by
          rw [nonSeqDest] at hd
          cases hst : nonSeqStem args f with
          | error e => rw [hst] at hd; cases hd
          | ok st => rw [hst] at hd; cases hd; rfl
        simp only [List.map_cons, hb, ih bs ht]

/-- The keys of the in-memory mapping are exactly the matched files, in order. -/
theorem buildMapping_fst (args : Args) (chExt : String) (files : List FsPath)
    (m : List (FsPath × FsPath)) (h : buildMapping args chExt files = .ok m) :
    m.map Prod.fst = files := by
  rw [buildMapping] at h
  by_cases ho : args.onlyExt = true
  · rw [if_pos ho] at h
    by_cases hc : chExt = ""
    · rw [if_pos hc] at h; cases h
    · rw [if_neg hc] at h
      cases h
      rw [List.map_map]
      have hcomp : (Prod.fst ∘ fun f : FsPath => (f, f.withSuffix chExt)) = id := rfl
      rw [hcomp, List.map_id]
  · rw [if_neg ho] at h
    cases hm : args.mode with
    | sequential =>
      rw [hm] at h
      cases h
      exact seqMap_fst _ _ _ _ _
    | slugify =>
      rw [hm] at h
      exact mapExcept_nonSeqDest_fst args chExt files m h
    | lowercase =>
      rw [hm] at h
      exact mapExcept_nonSeqDest_fst args chExt files m h
    | replace =>
      rw [hm] at h
      exact mapExcept_nonSeqDest_fst args chExt files m h

/-- With replace mode and a search string present, the mapping loop succeeds
and substitutes in every stem. -/
theorem mapExcept_replace (args : Args) (chExt : String) (fr : String)
    (hm : args.mode = Mode.replace) (hfr : args.replaceFrom = some fr) :
    ∀ files : List FsPath, mapExcept (nonSeqDest args chExt) files =
      .ok (files.map (fun f => (f, f.withName
        (pyReplace f.stem fr (args.replaceTo.getD "") ++
          (if chExt = "" then f.suffix else chExt))))) := by
  intro files
  induction files with
  | nil => rfl
  | cons f fl ih =>
    rw [mapExcept]
    have hf : nonSeqDest args chExt f =
        .ok (f, f.withName (pyReplace f.stem fr (args.replaceTo.getD "") ++
          (if chExt = "" then f.suffix else chExt))) := by
      rw [nonSeqDest, nonSeqStem, hm, hfr]
    rw [hf, ih]
    rfl

theorem filterBySrc_subset (srcExts : Option (List String)) (files : List FsPath) :
    filterBySrc srcExts files ⊆ files := by
  cases srcExts with
  | none => exact fun x hx => hx
  | some exts => exact fun x hx => List.mem_of_mem_filter hx

theorem filterBySrc_pairwise {R : FsPath → FsPath → Prop} (srcExts : Option (List String))
    {files : List FsPath} (h : files.Pairwise R) :
    (filterBySrc srcExts files).Pairwise R := by
  cases srcExts with
  | none => exact h
  | some exts => exact List.Pairwise.filter _ h

/-! ## Claim theorems -/

/-- C1: for every naming policy of the batch renamer (any argument record) and
every input list of files whose stems are pairwise distinct and which all
exist, the destination paths actually used by a non-dry run after collision
resolution are pairwise distinct. -/
theorem claim1_dests_distinct (args : Args) (files : List FsPath) (fs : FS)
    (res : List (FsPath × FsPath) × FS)
    (hstems : files.Pairwise (fun f g => f.stem ≠ g.stem))
    (hmem : ∀ f ∈ files, f ∈ fs.files)
    (hdry : args.dryRun = false)
    (hrun : runMain args files fs = .ok res) :
    (res.1.map Prod.snd).Pairwise (· ≠ ·) := by
  rw [runMain] at hrun
  by_cases hf : files = []
  · rw [if_pos hf] at hrun
    cases hrun
    simp
  · rw [if_neg hf] at hrun
    by_cases hempty : (parse_src_exts args.srcExt).isSome ∧
        filterBySrc (parse_src_exts args.srcExt) files = []
    · rw [if_pos hempty] at hrun
      cases hrun
      simp
    · rw [if_neg hempty] at hrun
      cases hbm : buildMapping args (normChangeExt args)
          (filterBySrc (parse_src_exts args.srcExt) files) with
      | error e => rw [hbm] at hrun; cases hrun
      | ok mapping =>
        rw [hbm] at hrun
        cases hrun
        rw [hdry]
        have hfst := buildMapping_fst _ _ _ _ hbm
        have hp1 : (filterBySrc (parse_src_exts args.srcExt) files).Pairwise
            (fun f g => f.stem ≠ g.stem) := filterBySrc_pairwise _ hstems
        have hnodup : (mapping.map Prod.fst).Nodup := by
          rw [hfst]
          exact hp1.imp (fun h hh => h (congrArg FsPath.stem hh))
        have hmem' : ∀ p ∈ mapping, p.1 ∈ fs.files := by
          intro p hp
          have hp1mem : p.1 ∈ filterBySrc (parse_src_exts args.srcExt) files := by
            rw [← hfst]
            exact List.mem_map_of_mem Prod.fst hp
          exact hmem p.1 (filterBySrc_subset _ _ hp1mem)
        exact applyAll_dests_distinct mapping fs hnodup hmem'

theorem claim1_witness : (w1res.1.map Prod.snd).Pairwise (· ≠ ·) :=
  claim1_dests_distinct w1args w1files w1fs w1res (by decide) (by decide) rfl (by decide)

/-- C2 counterexample: with 999 files and start offset 1 the code pads to
width `max(3, len(str(1000))) = 4`, while the claimed formula
`max(3, digits(start + count - 1)) = max(3, digits(999))` gives 3. -/
theorem claim2_counterexample :
    ¬ seqWidth 999 1 = max 3 (natToStr (1 + 999 - 1)).length := by decide

/-- C2 amended: in sequential mode every produced zero-padded index string
(indices never exceed `count + start`) has width exactly
`max(3, digits needed to write count + start)` — one more than the claimed
highest index `start + count - 1`. -/
theorem claim2_amended_width (total start idx : Nat) (h : idx ≤ total + start) :
    (zfill (seqWidth total start) (natToStr idx)).length =
      max 3 (natToStr (total + start)).length := by
  have hw : seqWidth total start = max 3 (natToStr (total + start)).length := rfl
  have hlen : (natToStr idx).length ≤ seqWidth total start :=
    le_trans (natToStr_length_mono h) (by rw [hw]; exact le_max_right _ _)
  have hzf : (zfill (seqWidth total start) (natToStr idx)).length =
      (seqWidth total start - (natToStr idx).length) + (natToStr idx).length := by
    rw [zfill, string_length_data, string_data_append, List.length_append]
    have hrep : ((List.replicate (seqWidth total start - (natToStr idx).length) '0').asString).data.length =
        seqWidth total start - (natToStr idx).length := by
      rw [toList_asString, List.length_replicate]
    rw [hrep]
    rfl
  omega

theorem claim2_witness :
    5 ≤ 7 + 1 ∧ (zfill (seqWidth 7 1) (natToStr 5)).length =
      max 3 (natToStr (7 + 1)).length :=
  ⟨by decide, claim2_amended_width 7 1 5 (by decide)⟩

/-- C3 counterexample: on exactly `a.TXT`, `b.txt`, `c.md` with filter `txt`
and mode lowercase, the code's applied plan is
`a.TXT -> a_1.TXT`, `b.txt -> b_1.txt`, and the resulting filesystem contains
neither `a.txt` (so `a.TXT` was not renamed to `a.txt`) nor `b.txt` (so
`b.txt` was not left untouched). -/
theorem claim3_counterexample :
    runMain c3args c3files c3fs =
      .ok ([(⟨"d", "a.TXT"⟩, ⟨"d", "a_1.TXT"⟩), (⟨"d", "b.txt"⟩, ⟨"d", "b_1.txt"⟩)],
        ⟨[⟨"d", "b_1.txt"⟩, ⟨"d", "a_1.TXT"⟩, ⟨"d", "c.md"⟩], ["d"]⟩) ∧
    (⟨"d", "a.txt"⟩ : FsPath) ∉
      ([⟨"d", "b_1.txt"⟩, ⟨"d", "a_1.TXT"⟩, ⟨"d", "c.md"⟩] : List FsPath) ∧
    (⟨"d", "b.txt"⟩ : FsPath) ∉
      ([⟨"d", "b_1.txt"⟩, ⟨"d", "a_1.TXT"⟩, ⟨"d", "c.md"⟩] : List FsPath) := by decide

/-- C3 amended: running the renamer on exactly `a.TXT`, `b.txt`, `c.md` with
source-extension filter `txt` and mode lowercase renames `a.TXT` to `a_1.TXT`
and `b.txt` to `b_1.txt` (each tentative destination equals the still-existing
source file, so the collision resolver bumps it to `_1` and the same-path skip
never fires; lowercase leaves the extension's case unchanged), and never
touches `c.md`. -/
theorem claim3_amended_run :
    runMain c3args c3files c3fs =
      .ok ([(⟨"d", "a.TXT"⟩, ⟨"d", "a_1.TXT"⟩), (⟨"d", "b.txt"⟩, ⟨"d", "b_1.txt"⟩)],
        ⟨[⟨"d", "b_1.txt"⟩, ⟨"d", "a_1.TXT"⟩, ⟨"d", "c.md"⟩], ["d"]⟩) := by decide

/-- C4 counterexample: in slugify mode the two distinct sources `a b.txt` and
`a_b.txt` are both mapped to the proposed destination `a_b.txt`, so the
in-memory mapping is not injective. -/
theorem claim4_counterexample :
    buildMapping w1args "" [⟨"d", "a b.txt"⟩, ⟨"d", "a_b.txt"⟩] =
      .ok [(⟨"d", "a b.txt"⟩, ⟨"d", "a_b.txt"⟩), (⟨"d", "a_b.txt"⟩, ⟨"d", "a_b.txt"⟩)] ∧
    (⟨"d", "a b.txt"⟩ : FsPath) ≠ ⟨"d", "a_b.txt"⟩ := by decide

/-- C4 amended: the rename mapping is computed entirely in memory before any
filesystem mutation (`buildMapping` does not read the filesystem state) and
its keys are exactly the matched source files, each mapped once; but the
proposed destinations may collide and are only disambiguated later by the
collision resolver. -/
theorem claim4_amended_keys (args : Args) (chExt : String) (files : List FsPath)
    (m : List (FsPath × FsPath)) (h : buildMapping args chExt files = .ok m) :
    m.map Prod.fst = files :=
  buildMapping_fst args chExt files m h

theorem claim4_witness :
    ([(⟨"d", "x.txt"⟩, ⟨"d", "x.txt"⟩)] : List (FsPath × FsPath)).map Prod.fst =
      [⟨"d", "x.txt"⟩] :=
  claim4_amended_keys
    { mode := Mode.lowercase, pre := "", replaceFrom := none, replaceTo := none,
      start := 1, dryRun := false, changeExt := none, onlyExt := false, srcExt := none }
    "" [⟨"d", "x.txt"⟩] [(⟨"d", "x.txt"⟩, ⟨"d", "x.txt"⟩)] (by decide)

/-- C6: page-range extraction whose end page exceeds the page count does not
fail: with all path checks passing, a positive start not after the end and not
beyond the document, the result is the extraction of the clamped range
`start..total`, and the clamp warning is printed exactly when verbose. -/
theorem claim6_extract_clamps (total : Nat) (startP endP : Int) (verbose : Bool)
    (h1 : 0 < startP) (h2 : startP ≤ endP) (h3 : startP ≤ (total : Int))
    (h4 : (total : Int) < endP) :
    extract_pages true true true total startP endP verbose =
      .ok (startP, (total : Int), verbose) := by
  rw [extract_pages, if_neg (by decide), if_neg (by decide), if_neg (by decide),
    if_neg (by omega), if_neg (by omega), if_neg (by omega), if_pos h4,
    decide_eq_true h4, Bool.true_and]

theorem claim6_witness :
    extract_pages true true true 3 2 5 true = .ok (2, 3, true) :=
  claim6_extract_clamps 3 2 5 true (by decide) (by decide) (by decide) (by decide)

/-- C7: `unique_path` returns its argument unchanged when no file exists at
it, and otherwise the first candidate `stem_n + suffix` for `n = 1, 2, 3, ...`
in increasing order that does not exist. -/
theorem claim7_unique_path_first_free (fsf : List FsPath) (dest : FsPath) :
    FirstFreeResolution fsf dest (unique_path fsf dest) := by
  rw [unique_path]
  by_cases hd : dest ∈ fsf
  · rw [if_pos hd]
    refine Or.inr ⟨hd, ?_⟩
    obtain ⟨k, hk, hfree⟩ := probe_fuel_exists fsf dest dest.stem dest.suffix
    obtain ⟨n, hn1, heq, hnot, hall⟩ :=
      probe_spec fsf dest dest.stem dest.suffix (fsf.length + 1) 1 ⟨k, hk, hfree⟩
    exact ⟨n, hn1, heq, heq ▸ hnot, hall⟩
  · rw [if_neg hd]
    exact Or.inl ⟨hd, rfl⟩

/-- C8: with the dry-run flag set the applier mutates nothing: it resolves and
prints each planned pair but the filesystem state (files and directories)
after the run equals the state before it. -/
theorem claim8_dry_run_frame (ps : List (FsPath × FsPath)) (fs : FS) :
    (applyAll true ps fs).2 = fs := by
  induction ps generalizing fs with
  | nil => rfl
  | cons p ps ih =>
    obtain ⟨src, tent⟩ := p
    rw [applyAll]
    by_cases hs : src = unique_path fs.files tent
    · rw [if_pos hs]
      exact ih fs
    · rw [if_neg hs]
      simp only [cond_true]
      exact ih fs

/-- C9: replace mode with no `--replace-from` aborts with a usage error before
any file is renamed (whenever at least one file survives the extension
filter); with a search string supplied, every matched file's proposed new stem
is the literal substring substitution of the search string by the replacement
(empty when absent) in the old stem. -/
theorem claim9_replace (args : Args) (files : List FsPath) (fs : FS)
    (hm : args.mode = Mode.replace) (ho : args.onlyExt = false) :
    (args.replaceFrom = none → filterBySrc (parse_src_exts args.srcExt) files ≠ [] →
      runMain args files fs = .error "replace mode requires --replace-from") ∧
    (∀ fr, args.replaceFrom = some fr →
      buildMapping args (normChangeExt args) files =
        .ok (files.map (fun f => (f, f.withName
          (pyReplace f.stem fr (args.replaceTo.getD "") ++
            (if normChangeExt args = "" then f.suffix else normChangeExt args)))))) := by
  constructor
  · intro hnone hne
    rw [runMain]
    have hfne : files ≠ [] := by
      intro h0
      subst h0
      apply hne
      cases parse_src_exts args.srcExt <;> rfl
    rw [if_neg hfne]
    have hcond : ¬((parse_src_exts args.srcExt).isSome ∧
        filterBySrc (parse_src_exts args.srcExt) files = []) := fun hc => hne hc.2
    rw [if_neg hcond]
    have hbm : buildMapping args (normChangeExt args)
        (filterBySrc (parse_src_exts args.srcExt) files) =
        .error "replace mode requires --replace-from" := by
      rw [buildMapping, if_neg (by simp [ho]), hm]
      cases hfl : filterBySrc (parse_src_exts args.srcExt) files with
      | nil => exact absurd hfl hne
      | cons f fl =>
        rw [mapExcept]
        have hferr : nonSeqDest args (normChangeExt args) f =
            .error "replace mode requires --replace-from" := by
          rw [nonSeqDest, nonSeqStem, hm, hnone]
        rw [hferr]
    rw [hbm]
  · intro fr hfr
    rw [buildMapping, if_neg (by simp [ho]), hm]
    exact mapExcept_replace args (normChangeExt args) fr hm hfr files

theorem claim9_witness :
    runMain c9args1 [⟨"d", "x.txt"⟩] ⟨[⟨"d", "x.txt"⟩], ["d"]⟩ =
        .error "replace mode requires --replace-from" ∧
    buildMapping c9args2 (normChangeExt c9args2) [⟨"d", "ab.txt"⟩] =
      .ok [(⟨"d", "ab.txt"⟩, ⟨"d", "bb.txt"⟩)] := by
  constructor
  · exact (claim9_replace c9args1 [⟨"d", "x.txt"⟩] ⟨[⟨"d", "x.txt"⟩], ["d"]⟩
      rfl rfl).1 rfl (by decide)
  · exact ((claim9_replace c9args2 [⟨"d", "ab.txt"⟩] ⟨[], []⟩ rfl rfl).2 "a" rfl).trans
      (by decide)

/-- C10: the rasterizer, asked for a 1-based first page strictly beyond the
page count, raises the invalid-page-range error (start after end) and
produces no images, instead of clamping the first page. -/
theorem claim10_first_page_beyond (count : Nat) (f : Int) (last : Option Int)
    (fmt : String) (h1 : 1 ≤ f) (h2 : (count : Int) < f) :
    convert_pdf_to_images true count (some f) last fmt =
      .error "Invalid page range: start page is after end page" := by
  have hstart : cvtStart (some f) = f - 1 := by
    rw [cvtStart]
    exact max_eq_right (by omega)
  have hend : cvtEnd count last ≤ (count : Int) - 1 := by
    cases last with
    | none => rw [cvtEnd]
    | some l => rw [cvtEnd]; exact min_le_left _ _
  rw [convert_pdf_to_images, if_neg (by decide), if_pos (by omega)]

theorem claim10_witness :
    convert_pdf_to_images true 2 (some 5) none "png" =
      .error "Invalid page range: start page is after end page" :=
  claim10_first_page_beyond 2 5 none "png" (by decide) (by decide)

end Automation
